import Mathlib

/-!
Shallow embedding of `student_code.py`: a small in-memory directed-graph
library (`SortableDigraph` / `TraversableDigraph` / `DAG`).

Python dictionaries keep insertion order, so the three dicts of the class
(`self.adj`, `self.node_data`, `self.edge_weights`) are modelled as
association lists whose first matching entry is the binding.  The recursive
procedures (`topsort`'s inner `visit`, `dfs`, `_has_path`) and the `bfs`
loop are modelled with an explicit fuel argument; the fuel is set to a bound
that strictly exceeds the recursion depth any run can attain (one more than
the number of node occurrences in the adjacency structure), so the fuel
never runs out on an actual execution.
-/

set_option autoImplicit false

variable {α β γ : Type} [DecidableEq α]

/-- First-match lookup in an association list: `d[k]` / `d.get(k)`. -/
def alookup {σ : Type} (k : α) : List (α × σ) → Option σ
  | [] => none
  | (a, b) :: xs => if a = k then some b else alookup k xs

/-- The state of a `SortableDigraph` object: `self.adj`, `self.node_data`,
`self.edge_weights` (payloads and weights both default to `None`, modelled
as `Option`). -/
structure PyGraph (α β γ : Type) where
  adj : List (α × List α)
  node_data : List (α × Option β)
  edge_weights : List ((α × α) × Option γ)
deriving DecidableEq

/-- A freshly constructed graph: all three dicts empty. -/
def PyGraph.empty (α β γ : Type) : PyGraph α β γ := ⟨[], [], []⟩

/-- `add_node`: if `node not in self.adj`, bind `self.adj[node] = []` and
`self.node_data[node] = data`; otherwise do nothing. -/
def add_node (g : PyGraph α β γ) (node : α) (data : Option β) : PyGraph α β γ :=
  match alookup node g.adj with
  | some _ => g
  | none =>
      { adj := g.adj ++ [(node, [])]
        node_data := g.node_data ++ [(node, data)]
        edge_weights := g.edge_weights }

/-- `self.adj[u].append(v)`: append `v` to the list bound to the first
entry with key `u`. -/
def adjAppend (u v : α) : List (α × List α) → List (α × List α)
  | [] => []
  | (k, l) :: xs => if k = u then (k, l ++ [v]) :: xs else (k, l) :: adjAppend u v xs

/-- `self.edge_weights[(u, v)] = w`: overwrite the binding in place if the
key is present, otherwise append a new binding (Python dict assignment). -/
def weightSet (p : α × α) (w : Option γ) :
    List ((α × α) × Option γ) → List ((α × α) × Option γ)
  | [] => [(p, w)]
  | (q, w0) :: xs => if q = p then (q, w) :: xs else (q, w0) :: weightSet p w xs

/-- `SortableDigraph.add_edge`: ensure both endpoints exist, append `v` to
`u`'s adjacency list, and set the weight of the ordered pair `(u, v)`. -/
def add_edge (g : PyGraph α β γ) (u v : α) (w : Option γ) : PyGraph α β γ :=
  let g2 := add_node (add_node g u none) v none
  { adj := adjAppend u v g2.adj
    node_data := g2.node_data
    edge_weights := weightSet (u, v) w g2.edge_weights }

/-- `get_node_value`: `self.node_data.get(node)` — stored payload, or
`None` when the node is unknown. -/
def get_node_value (g : PyGraph α β γ) (node : α) : Option β :=
  (alookup node g.node_data).join

/-- `get_edge_weight`: `self.edge_weights.get((u, v))`. -/
def get_edge_weight (g : PyGraph α β γ) (u v : α) : Option γ :=
  (alookup (u, v) g.edge_weights).join

/-- `successors`: `self.adj.get(node, []).copy()`. -/
def successors (g : PyGraph α β γ) (node : α) : List α :=
  (alookup node g.adj).getD []

/-- `predecessors`: scan `self.adj.items()` and collect every key whose
list contains `node`. -/
def predecessors (g : PyGraph α β γ) (node : α) : List α :=
  (g.adj.filter (fun p => decide (node ∈ p.2))).map Prod.fst

/-- `get_nodes`: `list(self.adj.keys())`. -/
def get_nodes (g : PyGraph α β γ) : List α := g.adj.map Prod.fst

/-- Every node occurrence in the adjacency structure: the keys plus the
members of every adjacency list.  Only used to size the fuel of the
recursive procedures. -/
def allNodes (g : PyGraph α β γ) : List α :=
  g.adj.map Prod.fst ++ (g.adj.map Prod.snd).flatten

/-- Fuel bound: strictly more than the number of distinct nodes any
recursion of the library can pass through. -/
def fuelOf (g : PyGraph α β γ) : Nat := (allNodes g).length + 2

/-- The single directed-edge relation of the graph: `v` is in `u`'s
adjacency list. -/
def EdgeRel (g : PyGraph α β γ) (u v : α) : Prop := v ∈ successors g u

/-- `b` is reachable from `a` by a directed path of zero or more edges. -/
def Reaches (g : PyGraph α β γ) (a b : α) : Prop :=
  Relation.ReflTransGen (EdgeRel g) a b

/-- No node is reachable from itself via a path of one or more edges. -/
def Acyclic (g : PyGraph α β γ) : Prop :=
  ∀ x : α, ¬ Relation.TransGen (EdgeRel g) x x

/-- The inner recursion `visit(node)` of `topsort`, on the state
`(visited, result)`.  `visit` returns when `node` is already visited;
otherwise it marks `node`, recursively visits every neighbour (the `for`
loop is the fold), then appends `node` to `result`. -/
def visitF (g : PyGraph α β γ) : Nat → α → List α × List α → List α × List α
  | 0, _, s => s
  | fuel + 1, node, s =>
    if node ∈ s.1 then s
    else
      let t := (successors g node).foldl (fun t n => visitF g fuel n t) (node :: s.1, s.2)
      (t.1, t.2 ++ [node])

/-- The `for node in list(self.adj.keys()): visit(node)` loop of `topsort`
(also reused for the inner neighbour loop of `visit`). -/
def visitList (g : PyGraph α β γ) (fuel : Nat) (ns : List α) (s : List α × List α) :
    List α × List α :=
  ns.foldl (fun t n => visitF g fuel n t) s

/-- `topsort`: run `visit` over every key in insertion order, starting from
an empty visited set and result list, and return the reversed result. -/
def topsort (g : PyGraph α β γ) : List α :=
  (visitList g (fuelOf g) (get_nodes g) ([], [])).2.reverse

/-- `TraversableDigraph.dfs(start, visited)`: returns the pair
(yielded sequence, visited set after the call).  For each not-yet-visited
neighbour the generator yields the neighbour and then recurses into it. -/
def dfsF (g : PyGraph α β γ) : Nat → α → List α → List α × List α
  | 0, _, vis => ([], vis)
  | fuel + 1, start, vis =>
    if start ∈ vis then ([], vis)
    else
      (successors g start).foldl
        (fun acc n =>
          if n ∈ acc.2 then acc
          else
            let r := dfsF g fuel n acc.2
            (acc.1 ++ n :: r.1, r.2))
        ([], start :: vis)

/-- How an external caller resolves the `start` argument: an explicit start
is kept; `None` defaults to the first key in insertion order (or nothing on
an empty graph). -/
def startOf (g : PyGraph α β γ) (start : Option α) : Option α :=
  match start with
  | some s => some s
  | none =>
      match g.adj with
      | [] => none
      | (k, _) :: _ => some k

/-- `dfs(start)` as called from outside (`visited=None`): the yielded
sequence. -/
def dfs (g : PyGraph α β γ) (start : Option α) : List α :=
  match startOf g start with
  | none => []
  | some s => (dfsF g (fuelOf g) s []).1

/-- The `while queue:` loop of `bfs` on the state (queue, visited, first):
pop a node, yield it unless it is the very first pop, and enqueue its
not-yet-visited successors, marking them visited at enqueue time. -/
def bfsLoop (g : PyGraph α β γ) : Nat → List α → List α → Bool → List α
  | 0, _, _, _ => []
  | fuel + 1, queue, vis, first =>
    match queue with
    | [] => []
    | node :: rest =>
      let p := (successors g node).foldl
        (fun p n => if n ∈ p.1 then p else (n :: p.1, p.2 ++ [n])) (vis, rest)
      (if first then [] else [node]) ++ bfsLoop g fuel p.2 p.1 false

/-- `bfs(start)`: empty graphs produce nothing at once; otherwise the queue
is seeded with the resolved start node, which is marked visited and whose
own yield is suppressed. -/
def bfs (g : PyGraph α β γ) (start : Option α) : List α :=
  match g.adj with
  | [] => []
  | (k, _) :: _ =>
    let s := (startOf g start).getD k
    bfsLoop g (fuelOf g) [s] [s] true

/-- `DAG._has_path(start, end, visited)`: returns (found, visited set).
If `start == end` the search succeeds at once; otherwise `start` is marked
visited and each not-yet-visited neighbour is searched in turn, the `for`
loop stopping at the first success (modelled by the absorbing first
component of the fold state). -/
def hasPathF (g : PyGraph α β γ) : Nat → α → α → List α → Bool × List α
  | 0, _, _, vis => (false, vis)
  | fuel + 1, start, stop, vis =>
    if start = stop then (true, vis)
    else
      (successors g start).foldl
        (fun r n =>
          if r.1 then r
          else if n ∈ r.2 then r
          else hasPathF g fuel n stop r.2)
        (false, start :: vis)

/-- `self._has_path(a, b)` as called by `DAG.add_edge` (fresh visited set). -/
def hasPath (g : PyGraph α β γ) (a b : α) : Bool :=
  (hasPathF g (fuelOf g) a b []).1

/-- `DAG.add_edge`: raise (an error carrying the offending pair `(u, v)`)
when `v` can already reach `u`; otherwise delegate to the base insertion. -/
def DAG_add_edge (g : PyGraph α β γ) (u v : α) (w : Option γ) :
    Except (α × α) (PyGraph α β γ) :=
  if hasPath g v u then Except.error (u, v)
  else Except.ok (add_edge g u v w)

/-- The state of the `DAG` object after an `add_edge` attempt: the raised
error leaves the object exactly as it was. -/
def tryAddEdge (g : PyGraph α β γ) (u v : α) (w : Option γ) : PyGraph α β γ :=
  match DAG_add_edge g u v w with
  | Except.ok g' => g'
  | Except.error _ => g

/-- One public mutating call on a `DAG` object. -/
inductive DagOp (α β γ : Type) where
  | node : α → Option β → DagOp α β γ
  | edge : α → α → Option γ → DagOp α β γ

/-- Apply one call to the `DAG` object; a rejected edge leaves the state
unchanged. -/
def applyDAG (g : PyGraph α β γ) : DagOp α β γ → PyGraph α β γ
  | DagOp.node n d => add_node g n d
  | DagOp.edge u v w => tryAddEdge g u v w

/-- The `DAG` state after a finite sequence of calls on a fresh object. -/
def buildDAG (ops : List (DagOp α β γ)) : PyGraph α β γ :=
  ops.foldl applyDAG (PyGraph.empty α β γ)

/-- Well-formedness of the adjacency structure (holds for every state
reachable through the public interface): every member of an adjacency list
is itself a key of `self.adj`. -/
def SuccClosed (g : PyGraph α β γ) : Prop :=
  ∀ p ∈ g.adj, ∀ v ∈ p.2, (alookup v g.adj).isSome = true

/-! ### Association-list facts -/

theorem alookup_append {σ : Type} (k : α) (l₁ l₂ : List (α × σ)) :
    alookup k (l₁ ++ l₂) =
      match alookup k l₁ with
      | some b => some b
      | none => alookup k l₂ := by
  induction l₁ with
  | nil => simp [alookup]
  | cons p xs ih =>
      obtain ⟨a, b⟩ := p
      by_cases h : a = k <;> simp [alookup, h, ih]

theorem alookup_isSome_iff {σ : Type} (k : α) (l : List (α × σ)) :
    (alookup k l).isSome = true ↔ k ∈ l.map Prod.fst := by
  induction l with
  | nil => simp [alookup]
  | cons p xs ih =>
      obtain ⟨a, b⟩ := p
      by_cases h : a = k
      · simp [alookup, h]
      · have h' : ¬ k = a := fun hh => h hh.symm
        simp [alookup, h, h', ih]

/-! ### `add_node` facts -/

theorem add_node_known (g : PyGraph α β γ) (n : α) (d : Option β)
    (h : (alookup n g.adj).isSome = true) : add_node g n d = g := by
  cases hl : alookup n g.adj with
  | some l => simp [add_node, hl]
  | none => simp [hl] at h

theorem alookup_add_node_self (g : PyGraph α β γ) (n : α) (d : Option β) :
    alookup n (add_node g n d).adj = some (successors g n) := by
  cases hl : alookup n g.adj with
  | some l => simp [add_node, hl, successors]
  | none => simp [add_node, hl, successors, alookup_append, alookup]

theorem successors_add_node (g : PyGraph α β γ) (n : α) (d : Option β) (x : α) :
    successors (add_node g n d) x = successors g x := by
  cases hl : alookup n g.adj with
  | some l => simp [add_node, hl]
  | none =>
      by_cases hx : n = x
      · subst hx; simp [successors, add_node, hl, alookup_append, alookup]
      · simp only [successors, add_node, hl, alookup_append]
        cases alookup x g.adj <;> simp [alookup, hx]

theorem add_node_weights (g : PyGraph α β γ) (n : α) (d : Option β) :
    (add_node g n d).edge_weights = g.edge_weights := by
  cases hl : alookup n g.adj <;> simp [add_node, hl]

/-! ### `adjAppend` and `weightSet` facts -/

theorem alookup_adjAppend (u v x : α) (l : List (α × List α)) (s : List α)
    (h : alookup u l = some s) :
    alookup x (adjAppend u v l) = if x = u then some (s ++ [v]) else alookup x l := by
  induction l with
  | nil => simp [alookup] at h
  | cons p xs ih =>
      obtain ⟨k, m⟩ := p
      by_cases hk : k = u
      · subst hk
        have hm : m = s := by simpa [alookup] using h
        subst hm
        by_cases hx : x = k
        · subst hx; simp [adjAppend, alookup]
        · have hx' : ¬ k = x := fun hh => hx hh.symm
          simp [adjAppend, alookup, hx, hx']
      · have h' : alookup u xs = some s := by simpa [alookup, hk] using h
        by_cases hx : k = x
        · have hk' : ¬ x = u := fun hh => hk (hx.trans hh)
          simp [adjAppend, alookup, hk, hx, hk']
        · simp [adjAppend, alookup, hk, hx, ih h']

theorem adjAppend_keys (u v : α) (l : List (α × List α)) :
    (adjAppend u v l).map Prod.fst = l.map Prod.fst := by
  induction l with
  | nil => rfl
  | cons p xs ih =>
      obtain ⟨k, m⟩ := p
      by_cases hk : k = u <;> simp [adjAppend, hk, ih]

theorem alookup_weightSet_self (p : α × α) (w : Option γ)
    (l : List ((α × α) × Option γ)) :
    alookup p (weightSet p w l) = some w := by
  induction l with
  | nil => simp [weightSet, alookup]
  | cons q xs ih =>
      obtain ⟨q0, w0⟩ := q
      by_cases hq : q0 = p <;> simp [weightSet, hq, alookup, ih]

/-! ### `add_edge` facts -/

theorem alookup_add_node_other (g : PyGraph α β γ) (n x : α) (d : Option β)
    (h : (alookup x g.adj).isSome = true) :
    alookup x (add_node g n d).adj = alookup x g.adj := by
  cases hl : alookup n g.adj with
  | some l => simp [add_node, hl]
  | none =>
      simp only [add_node, hl]
      rw [alookup_append]
      cases hx : alookup x g.adj with
      | some y => rfl
      | none => rw [hx] at h; simp at h

theorem alookup_after_add_nodes (g : PyGraph α β γ) (u v : α) :
    alookup u (add_node (add_node g u (none : Option β)) v none).adj
      = some (successors g u) := by
  have h1 := alookup_add_node_self g u (none : Option β)
  have h2 : alookup u (add_node (add_node g u (none : Option β)) v none).adj
      = alookup u (add_node g u (none : Option β)).adj :=
    alookup_add_node_other _ v u none (by simp [h1])
  rw [h2, h1]

theorem successors_add_edge (g : PyGraph α β γ) (u v x : α) (w : Option γ) :
    successors (add_edge g u v w) x =
      if x = u then successors g u ++ [v] else successors g x := by
  have h2 := alookup_after_add_nodes g u v
  have hx := alookup_adjAppend u v x _ _ h2
  by_cases h : x = u
  · subst h
    simp only [if_pos rfl] at hx ⊢
    simp [successors, add_edge, hx]
  · rw [if_neg h]
    calc successors (add_edge g u v w) x
        = (alookup x (adjAppend u v (add_node (add_node g u none) v none).adj)).getD [] := rfl
      _ = (alookup x (add_node (add_node g u (none : Option β)) v none).adj).getD [] := by
            rw [hx, if_neg h]
      _ = successors (add_node (add_node g u (none : Option β)) v none) x := rfl
      _ = successors g x := by rw [successors_add_node, successors_add_node]

theorem add_node_keys_nodup (g : PyGraph α β γ) (n : α) (d : Option β)
    (h : (g.adj.map Prod.fst).Nodup) :
    ((add_node g n d).adj.map Prod.fst).Nodup := by
  cases hl : alookup n g.adj with
  | some l => simp [add_node, hl, h]
  | none =>
      have hn : n ∉ g.adj.map Prod.fst := by
        intro hm
        have hs := (alookup_isSome_iff n g.adj).mpr hm
        simp [hl] at hs
      simp [add_node, hl, List.nodup_append, h, hn]

theorem add_edge_keys_nodup (g : PyGraph α β γ) (u v : α) (w : Option γ)
    (h : (g.adj.map Prod.fst).Nodup) :
    ((add_edge g u v w).adj.map Prod.fst).Nodup := by
  have hk : (add_edge g u v w).adj.map Prod.fst
      = (add_node (add_node g u (none : Option β)) v none).adj.map Prod.fst := by
    simp [add_edge, adjAppend_keys]
  rw [hk]
  exact add_node_keys_nodup _ _ _ (add_node_keys_nodup _ _ _ h)

/-- With distinct keys, a key `u` whose adjacency list contains `v`
contributes exactly one entry to the predecessor scan for `v`. -/
theorem count_pred_scan (u v : α) (l : List (α × List α))
    (hnd : (l.map Prod.fst).Nodup) (s : List α)
    (hu : alookup u l = some s) (hv : v ∈ s) :
    List.count u ((l.filter (fun p => decide (v ∈ p.2))).map Prod.fst) = 1 := by
  induction l with
  | nil => simp [alookup] at hu
  | cons p xs ih =>
      obtain ⟨k, m⟩ := p
      simp only [List.map_cons, List.nodup_cons] at hnd
      by_cases hk : k = u
      · subst hk
        have hm : m = s := by simpa [alookup] using hu
        subst hm
        have hcount0 :
            List.count k ((xs.filter (fun p => decide (v ∈ p.2))).map Prod.fst) = 0 := by
          refine List.count_eq_zero_of_not_mem ?_
          intro hmem
          obtain ⟨q, hq, hq2⟩ := List.mem_map.mp hmem
          exact hnd.1 (List.mem_map.mpr ⟨q, List.mem_of_mem_filter hq, hq2⟩)
        simp [List.filter_cons, hv, hcount0]
      · have hu' : alookup u xs = some s := by simpa [alookup, hk] using hu
        have hres := ih hnd.2 hu'
        by_cases hp : v ∈ m
        · have hne : ¬ k = u := hk
          simp [List.filter_cons, hp, List.count_cons, hne, hres]
        · simp [List.filter_cons, hp, hres]

/-- C5: re-adding a known node is a no-op: it leaves the whole graph state
(adjacency, payloads, weights) unchanged, and calling `add_node` twice with
any payloads equals calling it once; the stored payload is never
overwritten. -/
theorem add_node_noop_and_idem (g : PyGraph α β γ) (n : α) (d d' : Option β) :
    ((alookup n g.adj).isSome = true → add_node g n d = g)
    ∧ add_node (add_node g n d) n d' = add_node g n d := by
  constructor
  · exact add_node_known g n d
  · apply add_node_known
    rw [alookup_add_node_self]
    rfl

/-- Concrete graph used by witnesses: one node `0` with payload `5`. -/
def gOneNode : PyGraph Nat Nat Nat := ⟨[(0, [])], [(0, some 5)], []⟩

theorem add_node_noop_and_idem_witness :
    add_node gOneNode 0 (some 9) = gOneNode
    ∧ add_node (add_node gOneNode 0 (some 9)) 0 (some 7)
        = add_node gOneNode 0 (some 9) :=
  ⟨(add_node_noop_and_idem gOneNode 0 (some 9) (some 7)).1 (by decide),
   (add_node_noop_and_idem gOneNode 0 (some 9) (some 7)).2⟩

/-- C9: re-adding the same edge appends a second (duplicate) adjacency
entry, overwrites the stored weight for the ordered pair with the latest
value, and the source still appears exactly once in the predecessor list of
the target. -/
theorem add_edge_parallel_semantics (g : PyGraph α β γ) (u v : α) (w w' : Option γ)
    (hnd : (g.adj.map Prod.fst).Nodup) :
    successors (add_edge (add_edge g u v w) u v w') u = successors g u ++ [v, v]
    ∧ alookup (u, v) (add_edge (add_edge g u v w) u v w').edge_weights = some w'
    ∧ List.count u (predecessors (add_edge (add_edge g u v w) u v w') v) = 1 := by
  refine ⟨?_, ?_, ?_⟩
  · rw [successors_add_edge, if_pos rfl, successors_add_edge, if_pos rfl]
    simp
  · have hshape : (add_edge (add_edge g u v w) u v w').edge_weights
        = weightSet (u, v) w'
            ((add_node (add_node (add_edge g u v w) u none) v none).edge_weights) := rfl
    rw [hshape, alookup_weightSet_self]
  · have hkeys := add_edge_keys_nodup (add_edge g u v w) u v w'
      (add_edge_keys_nodup g u v w hnd)
    have h2 := alookup_after_add_nodes (add_edge g u v w) u v
    have hu := alookup_adjAppend u v u _ _ h2
    rw [if_pos rfl] at hu
    exact count_pred_scan u v _ hkeys _ hu (by simp)

theorem add_edge_parallel_semantics_witness :
    successors (add_edge (add_edge (PyGraph.empty Nat Nat Nat) 0 1 none) 0 1 (some 3)) 0
      = successors (PyGraph.empty Nat Nat Nat) 0 ++ [1, 1]
    ∧ alookup (0, 1)
        (add_edge (add_edge (PyGraph.empty Nat Nat Nat) 0 1 none) 0 1 (some 3)).edge_weights
      = some (some 3)
    ∧ List.count 0
        (predecessors (add_edge (add_edge (PyGraph.empty Nat Nat Nat) 0 1 none) 0 1 (some 3)) 1)
      = 1 :=
  add_edge_parallel_semantics (PyGraph.empty Nat Nat Nat) 0 1 none (some 3) (by decide)

/-- The diamond graph of the demo: A→B, A→C, B→D, C→D, built by `add_edge`
on a fresh graph. -/
def gDiamond : PyGraph String Nat Nat :=
  add_edge (add_edge (add_edge (add_edge (PyGraph.empty String Nat Nat)
    "A" "B" none) "A" "C" none) "B" "D" none) "C" "D" none

/-- C8: on the diamond graph, `dfs("A")` yields exactly B, D, C (D is not
yielded a second time via C) and `bfs("A")` yields exactly B, C, D. -/
theorem dfs_bfs_diamond :
    dfs gDiamond (some "A") = ["B", "D", "C"]
    ∧ bfs gDiamond (some "A") = ["B", "C", "D"] := by
  decide

/-- C10: an unknown start node is treated as having no successors: both
traversals produce the empty sequence (and, being total functions, raise
no error). -/
theorem traverse_unknown_start (g : PyGraph α β γ) (s : α)
    (hne : g.adj ≠ []) (hs : alookup s g.adj = none) :
    dfs g (some s) = [] ∧ bfs g (some s) = [] := by
  have hsucc : successors g s = [] := by simp [successors, hs]
  have hf : fuelOf g = ((allNodes g).length + 1) + 1 := rfl
  constructor
  · show (dfsF g (fuelOf g) s []).1 = []
    rw [hf]
    simp [dfsF, hsucc]
  · obtain ⟨p, rest, hadj⟩ : ∃ p rest, g.adj = p :: rest := by
      cases hadj : g.adj with
      | nil => exact absurd hadj hne
      | cons p rest => exact ⟨p, rest, rfl⟩
    obtain ⟨k, l⟩ := p
    simp only [bfs, hadj, startOf]
    rw [hf]
    simp [bfsLoop, hsucc]

theorem traverse_unknown_start_witness :
    dfs gOneNode (some 5) = [] ∧ bfs gOneNode (some 5) = [] :=
  traverse_unknown_start gOneNode 5 (by decide) (by decide)

/-! ### Traversal soundness -/

theorem dfsF_succ (g : PyGraph α β γ) (f : Nat) (start : α) (vis : List α) :
    dfsF g (f + 1) start vis =
      if start ∈ vis then ([], vis)
      else
        (successors g start).foldl
          (fun acc n =>
            if n ∈ acc.2 then acc
            else (acc.1 ++ n :: (dfsF g f n acc.2).1, (dfsF g f n acc.2).2))
          ([], start :: vis) := rfl

/-- Everything `dfs` yields was unvisited, differs from the start node, and
is reachable from it by at least one edge; and the visited set only grows. -/
theorem dfsF_sound (g : PyGraph α β γ) :
    ∀ (fuel : Nat) (s : α) (vis : List α),
      (∀ x ∈ (dfsF g fuel s vis).1,
        x ∉ vis ∧ x ≠ s ∧ Relation.TransGen (EdgeRel g) s x)
      ∧ (∀ x ∈ vis, x ∈ (dfsF g fuel s vis).2) := by
  intro fuel
  induction fuel with
  | zero =>
      intro s vis
      refine ⟨?_, ?_⟩
      · intro x hx; simp [dfsF] at hx
      · intro x hx; simpa [dfsF] using hx
  | succ f ih =>
      intro s vis
      by_cases hs : s ∈ vis
      · refine ⟨?_, ?_⟩
        · intro x hx; rw [dfsF_succ, if_pos hs] at hx; simp at hx
        · intro x hx; rw [dfsF_succ, if_pos hs]; exact hx
      · have hloop :
            ∀ (ns : List α) (acc : List α × List α),
              (∀ n ∈ ns, EdgeRel g s n) →
              (∀ x ∈ acc.1, x ∉ vis ∧ x ≠ s ∧ Relation.TransGen (EdgeRel g) s x) →
              s ∈ acc.2 →
              (∀ x ∈ vis, x ∈ acc.2) →
              (∀ x ∈ (ns.foldl
                  (fun acc n =>
                    if n ∈ acc.2 then acc
                    else (acc.1 ++ n :: (dfsF g f n acc.2).1, (dfsF g f n acc.2).2))
                  acc).1,
                x ∉ vis ∧ x ≠ s ∧ Relation.TransGen (EdgeRel g) s x)
              ∧ s ∈ (ns.foldl
                  (fun acc n =>
                    if n ∈ acc.2 then acc
                    else (acc.1 ++ n :: (dfsF g f n acc.2).1, (dfsF g f n acc.2).2))
                  acc).2
              ∧ (∀ x ∈ vis, x ∈ (ns.foldl
                  (fun acc n =>
                    if n ∈ acc.2 then acc
                    else (acc.1 ++ n :: (dfsF g f n acc.2).1, (dfsF g f n acc.2).2))
                  acc).2) := by
          intro ns
          induction ns with
          | nil => intro acc hns hacc1 hsmem hvis; exact ⟨hacc1, hsmem, hvis⟩
          | cons n ns ih2 =>
              intro acc hns hacc1 hsmem hvis
              rw [List.foldl_cons]
              by_cases hn : n ∈ acc.2
              · rw [if_pos hn]
                exact ih2 acc (fun m hm => hns m (List.mem_cons_of_mem _ hm)) hacc1 hsmem hvis
              · rw [if_neg hn]
                have hr := ih n acc.2
                have hedge : EdgeRel g s n := hns n (List.mem_cons_self _ _)
                refine ih2 _ (fun m hm => hns m (List.mem_cons_of_mem _ hm)) ?_ ?_ ?_
                · intro x hx
                  rcases List.mem_append.mp hx with hx1 | hx2
                  · exact hacc1 x hx1
                  · rcases List.mem_cons.mp hx2 with rfl | hx3
                    · exact ⟨fun hc => hn (hvis x hc), fun hc => hn (hc ▸ hsmem),
                        Relation.TransGen.single hedge⟩
                    · have h3 := hr.1 x hx3
                      exact ⟨fun hc => h3.1 (hvis x hc), fun hc => h3.1 (hc ▸ hsmem),
                        Relation.TransGen.head hedge h3.2.2⟩
                · exact hr.2 s hsmem
                · exact fun x hx => hr.2 x (hvis x hx)
        rw [dfsF_succ, if_neg hs]
        have hmain := hloop (successors g s) ([], s :: vis)
          (fun n hn => hn)
          (by intro x hx; simp at hx)
          (List.mem_cons_self _ _)
          (fun x hx => List.mem_cons_of_mem _ hx)
        exact ⟨hmain.1, hmain.2.2⟩

theorem bfsLoop_zero (g : PyGraph α β γ) (q v : List α) (fi : Bool) :
    bfsLoop g 0 q v fi = [] := rfl

theorem bfsLoop_nil (g : PyGraph α β γ) (f : Nat) (v : List α) (fi : Bool) :
    bfsLoop g (f + 1) [] v fi = [] := rfl

theorem bfsLoop_cons (g : PyGraph α β γ) (f : Nat) (node : α)
    (rest vis : List α) (fi : Bool) :
    bfsLoop g (f + 1) (node :: rest) vis fi =
      (if fi then [] else [node]) ++
        bfsLoop g f
          ((successors g node).foldl
            (fun p n => if n ∈ p.1 then p else (n :: p.1, p.2 ++ [n])) (vis, rest)).2
          ((successors g node).foldl
            (fun p n => if n ∈ p.1 then p else (n :: p.1, p.2 ++ [n])) (vis, rest)).1
          false := rfl

/-- The enqueue loop of `bfs` keeps the start node in the visited set and
only enqueues nodes that differ from it and are reachable from it. -/
theorem bfsEnq_sound (g : PyGraph α β γ) (s : α) :
    ∀ (ns : List α) (vp : List α × List α),
      s ∈ vp.1 →
      (∀ x ∈ vp.2, x ≠ s ∧ Relation.TransGen (EdgeRel g) s x) →
      (∀ n ∈ ns, Relation.TransGen (EdgeRel g) s n) →
      s ∈ (ns.foldl (fun p n => if n ∈ p.1 then p else (n :: p.1, p.2 ++ [n])) vp).1
      ∧ ∀ x ∈ (ns.foldl (fun p n => if n ∈ p.1 then p else (n :: p.1, p.2 ++ [n])) vp).2,
          x ≠ s ∧ Relation.TransGen (EdgeRel g) s x := by
  intro ns
  induction ns with
  | nil => intro vp h1 h2 _; exact ⟨h1, h2⟩
  | cons n ns ih =>
      intro vp h1 h2 h3
      rw [List.foldl_cons]
      by_cases hn : n ∈ vp.1
      · rw [if_pos hn]
        exact ih vp h1 h2 (fun m hm => h3 m (List.mem_cons_of_mem _ hm))
      · rw [if_neg hn]
        refine ih _ (List.mem_cons_of_mem _ h1) ?_
          (fun m hm => h3 m (List.mem_cons_of_mem _ hm))
        intro x hx
        rcases List.mem_append.mp hx with hx1 | hx2
        · exact h2 x hx1
        · have hxn : x = n := by simpa using hx2
          subst hxn
          exact ⟨fun hc => hn (hc ▸ h1), h3 x (List.mem_cons_self _ _)⟩

/-- Once past the first pop, everything `bfs` yields differs from the start
node and is reachable from it. -/
theorem bfsLoop_sound (g : PyGraph α β γ) (s : α) :
    ∀ (fuel : Nat) (queue vis : List α),
      s ∈ vis →
      (∀ x ∈ queue, x ≠ s ∧ Relation.TransGen (EdgeRel g) s x) →
      ∀ y ∈ bfsLoop g fuel queue vis false,
        y ≠ s ∧ Relation.TransGen (EdgeRel g) s y := by
  intro fuel
  induction fuel with
  | zero => intro queue vis _ _ y hy; rw [bfsLoop_zero] at hy; simp at hy
  | succ f ih =>
      intro queue vis hs hq y hy
      cases queue with
      | nil => rw [bfsLoop_nil] at hy; simp at hy
      | cons node rest =>
          rw [bfsLoop_cons] at hy
          simp only [if_neg Bool.false_ne_true, List.cons_append, List.nil_append,
            List.mem_cons] at hy
          have hnode := hq node (List.mem_cons_self _ _)
          rcases hy with rfl | hy2
          · exact hnode
          · have henq := bfsEnq_sound g s (successors g node) (vis, rest) hs
              (fun x hx => hq x (List.mem_cons_of_mem _ hx))
              (fun n hn => hnode.2.tail hn)
            exact ih _ _ henq.1 henq.2 y hy2

/-- C7: neither `dfs(start)` nor `bfs(start)` (with `start` explicit or
defaulted) ever yields the resolved start node; every yielded node differs
from the start and is reachable from it via at least one edge. -/
theorem traversals_sound (g : PyGraph α β γ) (so : Option α) (x : α) :
    (x ∈ dfs g so →
      ∃ s, startOf g so = some s ∧ x ≠ s ∧ Relation.TransGen (EdgeRel g) s x)
    ∧ (x ∈ bfs g so →
      ∃ s, startOf g so = some s ∧ x ≠ s ∧ Relation.TransGen (EdgeRel g) s x) := by
  constructor
  · intro hx
    cases hso : startOf g so with
    | none => rw [dfs, hso] at hx; simp at hx
    | some s =>
        rw [dfs, hso] at hx
        have h := (dfsF_sound g (fuelOf g) s []).1 x hx
        exact ⟨s, rfl, h.2.1, h.2.2⟩
  · intro hx
    cases hadj : g.adj with
    | nil => rw [bfs, hadj] at hx; simp at hx
    | cons p rest =>
        obtain ⟨k, l⟩ := p
        have hstart : ∃ s, startOf g so = some s := by
          cases so with
          | some s => exact ⟨s, rfl⟩
          | none => exact ⟨k, by simp [startOf, hadj]⟩
        obtain ⟨s, hs⟩ := hstart
        refine ⟨s, hs, ?_⟩
        rw [bfs, hadj] at hx
        simp only [hs, Option.getD_some] at hx
        have hf : fuelOf g = ((allNodes g).length + 1) + 1 := rfl
        rw [hf, bfsLoop_cons] at hx
        simp only [if_pos, List.nil_append] at hx
        have henq := bfsEnq_sound g s (successors g s) ([s], []) (List.mem_cons_self _ _)
          (by intro z hz; simp at hz)
          (fun n hn => Relation.TransGen.single hn)
        exact bfsLoop_sound g s _ _ _ henq.1 henq.2 x hx

theorem traversals_sound_witness :
    (∃ s, startOf gDiamond (some "A") = some s
      ∧ "B" ≠ s ∧ Relation.TransGen (EdgeRel gDiamond) s "B")
    ∧ (∃ s, startOf gDiamond (some "A") = some s
      ∧ "C" ≠ s ∧ Relation.TransGen (EdgeRel gDiamond) s "C") :=
  ⟨(traversals_sound gDiamond (some "A") "B").1 (by decide),
   (traversals_sound gDiamond (some "A") "C").2 (by decide)⟩

/-! ### Reachability search: `_has_path` -/

/-- Number of nodes of the adjacency structure not yet visited; the measure
that justifies the fuel bound. -/
def newCard (g : PyGraph α β γ) (vis : List α) : Nat :=
  ((allNodes g).toFinset \ vis.toFinset).card

theorem newCard_le (g : PyGraph α β γ) {v v' : List α} (h : ∀ x ∈ v, x ∈ v') :
    newCard g v' ≤ newCard g v := by
  apply Finset.card_le_card
  intro x hx
  simp only [Finset.mem_sdiff, List.mem_toFinset] at hx ⊢
  exact ⟨hx.1, fun hc => hx.2 (h x hc)⟩

theorem newCard_cons_lt (g : PyGraph α β γ) {n : α} {vis : List α}
    (hn : n ∈ allNodes g) (hv : n ∉ vis) :
    newCard g (n :: vis) < newCard g vis := by
  have hsub : (allNodes g).toFinset \ (n :: vis).toFinset
      ⊆ (allNodes g).toFinset \ vis.toFinset := by
    intro x hx
    simp only [Finset.mem_sdiff, List.mem_toFinset, List.mem_cons] at hx ⊢
    exact ⟨hx.1, fun hc => hx.2 (Or.inr hc)⟩
  refine Finset.card_lt_card ((Finset.ssubset_iff_of_subset hsub).mpr ?_)
  refine ⟨n, ?_, ?_⟩
  · simp only [Finset.mem_sdiff, List.mem_toFinset]
    exact ⟨hn, hv⟩
  · simp [Finset.mem_sdiff, List.mem_toFinset]

theorem newCard_nil_le (g : PyGraph α β γ) :
    newCard g [] ≤ (allNodes g).length := by
  unfold newCard
  calc ((allNodes g).toFinset \ ([] : List α).toFinset).card
      ≤ (allNodes g).toFinset.card := Finset.card_le_card (Finset.sdiff_subset)
    _ ≤ (allNodes g).length := (allNodes g).toFinset_card_le

theorem alookup_mem {σ : Type} {k : α} {b : σ} :
    ∀ {l : List (α × σ)}, alookup k l = some b → (k, b) ∈ l := by
  intro l
  induction l with
  | nil => intro h; simp [alookup] at h
  | cons p xs ih =>
      obtain ⟨a, c⟩ := p
      intro h
      by_cases ha : a = k
      · subst ha
        have : c = b := by simpa [alookup] using h
        subst this
        exact List.mem_cons_self _ _
      · have h' : alookup k xs = some b := by simpa [alookup, ha] using h
        exact List.mem_cons_of_mem _ (ih h')

theorem mem_allNodes_of_succ (g : PyGraph α β γ) {u v : α}
    (h : v ∈ successors g u) : v ∈ allNodes g := by
  unfold successors at h
  cases hl : alookup u g.adj with
  | none => rw [hl] at h; simp at h
  | some l =>
      rw [hl] at h
      simp only [Option.getD_some] at h
      have hml : l ∈ g.adj.map Prod.snd :=
        List.mem_map.mpr ⟨(u, l), alookup_mem hl, rfl⟩
      exact List.mem_append.mpr (Or.inr (List.mem_flatten.mpr ⟨l, hml, h⟩))

theorem succ_empty_of_notin_allNodes (g : PyGraph α β γ) {u : α}
    (h : u ∉ allNodes g) : successors g u = [] := by
  cases hl : alookup u g.adj with
  | none => simp [successors, hl]
  | some l =>
      exfalso
      apply h
      apply List.mem_append.mpr
      refine Or.inl ?_
      exact (alookup_isSome_iff u g.adj).mp (by simp [hl])

theorem hasPathF_succ (g : PyGraph α β γ) (f : Nat) (start stop : α) (vis : List α) :
    hasPathF g (f + 1) start stop vis =
      if start = stop then (true, vis)
      else
        (successors g start).foldl
          (fun r n => if r.1 then r else if n ∈ r.2 then r else hasPathF g f n stop r.2)
          (false, start :: vis) := rfl

theorem hasPath_foldl_absorb (g : PyGraph α β γ) (f : Nat) (stop : α) :
    ∀ (ns : List α) (r : Bool × List α), r.1 = true →
      ns.foldl
        (fun r n => if r.1 then r else if n ∈ r.2 then r else hasPathF g f n stop r.2)
        r = r := by
  intro ns
  induction ns with
  | nil => intro r _; rfl
  | cons n ns ih =>
      intro r hr
      rw [List.foldl_cons, if_pos hr]
      exact ih r hr

/-- The `_has_path` search only grows the visited set, and never adds the
target node to it. -/
theorem hasPathF_mono (g : PyGraph α β γ) (stop : α) :
    ∀ (fuel : Nat) (start : α) (vis : List α),
      (∀ x ∈ vis, x ∈ (hasPathF g fuel start stop vis).2)
      ∧ (∀ x ∈ (hasPathF g fuel start stop vis).2, x ∈ vis ∨ x ≠ stop) := by
  intro fuel
  induction fuel with
  | zero =>
      intro start vis
      exact ⟨fun x hx => hx, fun x hx => Or.inl hx⟩
  | succ f ih =>
      intro start vis
      by_cases hss : start = stop
      · rw [hasPathF_succ, if_pos hss]
        exact ⟨fun x hx => hx, fun x hx => Or.inl hx⟩
      · rw [hasPathF_succ, if_neg hss]
        have hloop : ∀ (ns : List α) (r : Bool × List α),
            (∀ x ∈ vis, x ∈ r.2) →
            (∀ x ∈ r.2, x ∈ vis ∨ x ≠ stop) →
            (∀ x ∈ vis, x ∈ (ns.foldl
              (fun r n => if r.1 then r else if n ∈ r.2 then r else hasPathF g f n stop r.2)
              r).2)
            ∧ (∀ x ∈ (ns.foldl
              (fun r n => if r.1 then r else if n ∈ r.2 then r else hasPathF g f n stop r.2)
              r).2, x ∈ vis ∨ x ≠ stop) := by
          intro ns
          induction ns with
          | nil => intro r h1 h2; exact ⟨h1, h2⟩
          | cons n ns ih2 =>
              intro r h1 h2
              rw [List.foldl_cons]
              by_cases hr : r.1 = true
              · rw [if_pos hr]; exact ih2 r h1 h2
              · rw [if_neg hr]
                by_cases hn : n ∈ r.2
                · rw [if_pos hn]; exact ih2 r h1 h2
                · rw [if_neg hn]
                  refine ih2 _ (fun x hx => (ih n r.2).1 x (h1 x hx)) ?_
                  intro x hx
                  rcases (ih n r.2).2 x hx with hx1 | hx2
                  · exact h2 x hx1
                  · exact Or.inr hx2
        refine hloop (successors g start) (false, start :: vis) ?_ ?_
        · exact fun x hx => List.mem_cons_of_mem _ hx
        · intro x hx
          rcases List.mem_cons.mp hx with rfl | hx2
          · exact Or.inr hss
          · exact Or.inl hx2

/-- If `_has_path` reports a path, there is one. -/
theorem hasPathF_sound (g : PyGraph α β γ) (stop : α) :
    ∀ (fuel : Nat) (start : α) (vis : List α),
      (hasPathF g fuel start stop vis).1 = true →
      Relation.ReflTransGen (EdgeRel g) start stop := by
  intro fuel
  induction fuel with
  | zero => intro start vis h; simp [hasPathF] at h
  | succ f ih =>
      intro start vis h
      by_cases hss : start = stop
      · subst hss; exact Relation.ReflTransGen.refl
      · rw [hasPathF_succ, if_neg hss] at h
        have hloop : ∀ (ns : List α) (r : Bool × List α),
            (ns.foldl
              (fun r n => if r.1 then r else if n ∈ r.2 then r else hasPathF g f n stop r.2)
              r).1 = true →
            r.1 = true ∨ ∃ n ∈ ns, ∃ vis', (hasPathF g f n stop vis').1 = true := by
          intro ns
          induction ns with
          | nil => intro r hh; exact Or.inl hh
          | cons n ns ih2 =>
              intro r hh
              rw [List.foldl_cons] at hh
              by_cases hr : r.1 = true
              · exact Or.inl hr
              · rw [if_neg hr] at hh
                by_cases hn : n ∈ r.2
                · rw [if_pos hn] at hh
                  rcases ih2 r hh with h1 | h2
                  · exact Or.inl h1
                  · obtain ⟨m, hm, hrest⟩ := h2
                    exact Or.inr ⟨m, List.mem_cons_of_mem _ hm, hrest⟩
                · rw [if_neg hn] at hh
                  rcases ih2 _ hh with h1 | h2
                  · exact Or.inr ⟨n, List.mem_cons_self _ _, r.2, h1⟩
                  · obtain ⟨m, hm, hrest⟩ := h2
                    exact Or.inr ⟨m, List.mem_cons_of_mem _ hm, hrest⟩
        rcases hloop (successors g start) (false, start :: vis) h with h1 | h2
        · simp at h1
        · obtain ⟨n, hn, vis', htrue⟩ := h2
          exact Relation.ReflTransGen.head hn (ih n vis' htrue)

/-- When the `_has_path` search fails with enough fuel, it has fully
explored everything reachable from `start`: the final visited set contains
`start`, contains the old visited set, and every newly visited node has all
its successors visited. -/
theorem hasPathF_closure (g : PyGraph α β γ) (stop : α) :
    ∀ (fuel : Nat) (start : α) (vis : List α),
      newCard g vis + 2 ≤ fuel →
      start ∉ vis →
      stop ∉ vis →
      (hasPathF g fuel start stop vis).1 = false →
      (∀ x ∈ vis, x ∈ (hasPathF g fuel start stop vis).2)
      ∧ start ∈ (hasPathF g fuel start stop vis).2
      ∧ (∀ x ∈ (hasPathF g fuel start stop vis).2,
          x ∈ vis ∨ (∀ y ∈ successors g x, y ∈ (hasPathF g fuel start stop vis).2)) := by
  intro fuel
  induction fuel with
  | zero => intro start vis hf; omega
  | succ f ih =>
      intro start vis hf hsv htv hfalse
      by_cases hss : start = stop
      · rw [hasPathF_succ, if_pos hss] at hfalse; simp at hfalse
      · rw [hasPathF_succ, if_neg hss] at hfalse ⊢
        by_cases han : start ∈ allNodes g
        · -- enough fuel for the inner calls
          have hfuel0 : newCard g (start :: vis) + 2 ≤ f := by
            have := newCard_cons_lt g han hsv
            omega
          have hloop : ∀ (ns : List α) (r : Bool × List α),
              newCard g r.2 + 2 ≤ f →
              stop ∉ r.2 →
              (ns.foldl
                (fun r n => if r.1 then r else if n ∈ r.2 then r else hasPathF g f n stop r.2)
                r).1 = false →
              (∀ x ∈ r.2, x ∈ (ns.foldl
                (fun r n => if r.1 then r else if n ∈ r.2 then r else hasPathF g f n stop r.2)
                r).2)
              ∧ (∀ n ∈ ns, n ∈ (ns.foldl
                (fun r n => if r.1 then r else if n ∈ r.2 then r else hasPathF g f n stop r.2)
                r).2)
              ∧ (∀ x ∈ (ns.foldl
                (fun r n => if r.1 then r else if n ∈ r.2 then r else hasPathF g f n stop r.2)
                r).2,
                  x ∈ r.2 ∨ (∀ y ∈ successors g x, y ∈ (ns.foldl
                    (fun r n =>
                      if r.1 then r else if n ∈ r.2 then r else hasPathF g f n stop r.2)
                    r).2))
              ∧ stop ∉ (ns.foldl
                (fun r n => if r.1 then r else if n ∈ r.2 then r else hasPathF g f n stop r.2)
                r).2 := by
            intro ns
            induction ns with
            | nil =>
                intro r _ hstop _
                exact ⟨fun x hx => hx, by simp, fun x hx => Or.inl hx, hstop⟩
            | cons n ns ih2 =>
                intro r hfuel hstop hfin
                rw [List.foldl_cons] at hfin ⊢
                by_cases hr : r.1 = true
                · rw [if_pos hr] at hfin
                  rw [hasPath_foldl_absorb g f stop ns r hr] at hfin
                  exact absurd hfin (by simp [hr])
                · rw [if_neg hr] at hfin ⊢
                  by_cases hn : n ∈ r.2
                  · rw [if_pos hn] at hfin ⊢
                    have hrec := ih2 r hfuel hstop hfin
                    refine ⟨hrec.1, ?_, hrec.2.2.1, hrec.2.2.2⟩
                    intro m hm
                    rcases List.mem_cons.mp hm with rfl | hm2
                    · exact hrec.1 m hn
                    · exact hrec.2.1 m hm2
                  · rw [if_neg hn] at hfin ⊢
                    by_cases hr1 : (hasPathF g f n stop r.2).1 = true
                    · rw [hasPath_foldl_absorb g f stop ns _ hr1] at hfin
                      exact absurd hfin (by simp [hr1])
                    · have hr1' : (hasPathF g f n stop r.2).1 = false := by
                        cases hb : (hasPathF g f n stop r.2).1
                        · rfl
                        · exact absurd hb hr1
                      have hinner := ih n r.2 hfuel hn hstop hr1'
                      have hstop' : stop ∉ (hasPathF g f n stop r.2).2 := by
                        intro hmem
                        rcases (hasPathF_mono g stop f n r.2).2 stop hmem with h1 | h2
                        · exact hstop h1
                        · exact h2 rfl
                      have hfuel' : newCard g (hasPathF g f n stop r.2).2 + 2 ≤ f := by
                        have := newCard_le g hinner.1
                        omega
                      have hrec := ih2 _ hfuel' hstop' hfin
                      refine ⟨?_, ?_, ?_, hrec.2.2.2⟩
                      · exact fun x hx => hrec.1 x (hinner.1 x hx)
                      · intro m hm
                        rcases List.mem_cons.mp hm with rfl | hm2
                        · exact hrec.1 m hinner.2.1
                        · exact hrec.2.1 m hm2
                      · intro x hx
                        rcases hrec.2.2.1 x hx with h1 | h2
                        · rcases hinner.2.2 x h1 with h3 | h4
                          · exact Or.inl h3
                          · exact Or.inr (fun y hy => hrec.1 y (h4 y hy))
                        · exact Or.inr h2
          have hstop0 : stop ∉ start :: vis := by
            intro hmem
            rcases List.mem_cons.mp hmem with h1 | h2
            · exact hss h1.symm
            · exact htv h2
          have hmain := hloop (successors g start) (false, start :: vis) hfuel0 hstop0 hfalse
          refine ⟨?_, ?_, ?_⟩
          · exact fun x hx => hmain.1 x (List.mem_cons_of_mem _ hx)
          · exact hmain.1 start (List.mem_cons_self _ _)
          · intro x hx
            rcases hmain.2.2.1 x hx with h1 | h2
            · rcases List.mem_cons.mp h1 with rfl | h3
              · exact Or.inr (fun y hy => hmain.2.1 y hy)
              · exact Or.inl h3
            · exact Or.inr h2
        · -- the start node has no adjacency entry: the loop is empty
          have hemp : successors g start = [] := succ_empty_of_notin_allNodes g han
          rw [hemp]
          refine ⟨fun x hx => List.mem_cons_of_mem _ hx, List.mem_cons_self _ _, ?_⟩
          intro x hx
          rcases List.mem_cons.mp hx with rfl | h2
          · exact Or.inr (by rw [hemp]; intro y hy; simp at hy)
          · exact Or.inl h2

/-- Completeness of the reachability search: an existing path is found. -/
theorem hasPath_complete (g : PyGraph α β γ) (a b : α)
    (h : Relation.ReflTransGen (EdgeRel g) a b) : hasPath g a b = true := by
  by_contra hf
  have hfalse : (hasPathF g (fuelOf g) a b []).1 = false := by
    cases hb : (hasPathF g (fuelOf g) a b []).1
    · rfl
    · exact absurd (show hasPath g a b = true from hb) hf
  have hfuel : newCard g [] + 2 ≤ fuelOf g := by
    have := newCard_nil_le g
    unfold fuelOf
    omega
  have hcl := hasPathF_closure g b (fuelOf g) a [] hfuel (by simp) (by simp) hfalse
  have hstop_not : b ∉ (hasPathF g (fuelOf g) a b []).2 := by
    intro hmem
    rcases (hasPathF_mono g b (fuelOf g) a []).2 b hmem with h1 | h2
    · simp at h1
    · exact h2 rfl
  have hclosed : ∀ z, Relation.ReflTransGen (EdgeRel g) a z →
      z ∈ (hasPathF g (fuelOf g) a b []).2 := by
    intro z hz
    induction hz with
    | refl => exact hcl.2.1
    | tail hac hcz ihz =>
        rcases hcl.2.2 _ ihz with h1 | h2
        · simp at h1
        · exact h2 _ hcz
  exact hstop_not (hclosed b h)

/-- C2: the acyclic variant's `add_edge(u, v, w)` fails — raising the cycle
error that carries the pair `(u, v)` — exactly when there is a directed
path of zero or more edges from `v` to `u` in the existing graph.  In
particular `u = v` is always rejected, since the zero-length path exists. -/
theorem dag_add_edge_error_iff (g : PyGraph α β γ) (u v : α) (w : Option γ) :
    DAG_add_edge g u v w = Except.error (u, v)
      ↔ Relation.ReflTransGen (EdgeRel g) v u := by
  unfold DAG_add_edge
  by_cases h : hasPath g v u
  · simp only [h, if_true]
    constructor
    · intro _
      exact hasPathF_sound g u (fuelOf g) v [] h
    · intro _
      trivial
  · have hb : hasPath g v u = false := by
      cases hb : hasPath g v u
      · rfl
      · exact absurd hb h
    simp only [hb, Bool.false_eq_true, if_false]
    constructor
    · intro hc
      exact absurd hc (by simp)
    · intro hr
      exact absurd (hasPath_complete g v u hr) h

/-! ### Atomicity of rejected insertions (C3) -/

/-- C3: a rejected `add_edge` on the acyclic variant leaves the object
exactly as it was (the error is raised before any mutation); in particular
after a successful `add_edge(u, v)` with `u ≠ v`, the reverse attempt
`add_edge(v, u)` fails with the cycle error carrying `(v, u)` and the
whole graph state — hence successors, predecessors and weights of every
node — is identical to before the attempt. -/
theorem dag_add_edge_atomic :
    (∀ (g : PyGraph α β γ) (u v : α) (w : Option γ) (e : α × α),
      DAG_add_edge g u v w = Except.error e → tryAddEdge g u v w = g)
    ∧ (∀ (g : PyGraph α β γ) (u v : α) (w w' : Option γ) (g' : PyGraph α β γ),
      u ≠ v → DAG_add_edge g u v w = Except.ok g' →
      DAG_add_edge g' v u w' = Except.error (v, u)
      ∧ tryAddEdge g' v u w' = g') := by
  constructor
  · intro g u v w e h
    unfold tryAddEdge
    rw [h]
  · intro g u v w w' g' huv hok
    unfold DAG_add_edge at hok
    by_cases hp : hasPath g v u
    · rw [if_pos hp] at hok
      simp at hok
    · rw [if_neg hp] at hok
      have hg' : g' = add_edge g u v w := by
        injection hok with h'
        exact h'.symm
      subst hg'
      have hedge : EdgeRel (add_edge g u v w) u v := by
        show v ∈ successors (add_edge g u v w) u
        rw [successors_add_edge, if_pos rfl]
        simp
      have hfound : hasPath (add_edge g u v w) u v = true :=
        hasPath_complete _ u v (Relation.ReflTransGen.single hedge)
      have herr : DAG_add_edge (add_edge g u v w) v u w' = Except.error (v, u) := by
        unfold DAG_add_edge
        rw [if_pos hfound]
      refine ⟨herr, ?_⟩
      unfold tryAddEdge
      rw [herr]

theorem dag_add_edge_atomic_witness :
    tryAddEdge (PyGraph.empty Nat Nat Nat) 0 0 none = PyGraph.empty Nat Nat Nat
    ∧ DAG_add_edge (add_edge (PyGraph.empty Nat Nat Nat) 0 1 none) 1 0 none
        = Except.error (1, 0)
    ∧ tryAddEdge (add_edge (PyGraph.empty Nat Nat Nat) 0 1 none) 1 0 none
        = add_edge (PyGraph.empty Nat Nat Nat) 0 1 none := by
  have he0 : DAG_add_edge (PyGraph.empty Nat Nat Nat) 0 0 none = Except.error (0, 0) := by
    unfold DAG_add_edge
    rw [if_pos (by decide : hasPath (PyGraph.empty Nat Nat Nat) 0 0 = true)]
  have hok : DAG_add_edge (PyGraph.empty Nat Nat Nat) 0 1 none
      = Except.ok (add_edge (PyGraph.empty Nat Nat Nat) 0 1 none) := by
    unfold DAG_add_edge
    rw [if_neg (by decide : ¬ hasPath (PyGraph.empty Nat Nat Nat) 1 0 = true)]
  have h1 := dag_add_edge_atomic.1 (PyGraph.empty Nat Nat Nat) 0 0 none (0, 0) he0
  have h2 := dag_add_edge_atomic.2 (PyGraph.empty Nat Nat Nat) 0 1 none none
    (add_edge (PyGraph.empty Nat Nat Nat) 0 1 none) (by decide) hok
  exact ⟨h1, h2.1, h2.2⟩

/-! ### The DAG invariant (C1) -/

/-- Edge-local acyclicity: no edge is part of a cycle. -/
def AcyclicEdge (g : PyGraph α β γ) : Prop :=
  ∀ a b : α, EdgeRel g a b → ¬ Relation.ReflTransGen (EdgeRel g) b a

theorem edgeRel_add_node_eq (g : PyGraph α β γ) (n : α) (d : Option β) :
    EdgeRel (add_node g n d) = EdgeRel g := by
  funext a b
  exact propext (by simp [EdgeRel, successors_add_node])

theorem edgeRel_add_edge_iff (g : PyGraph α β γ) (u v : α) (w : Option γ) (a b : α) :
    EdgeRel (add_edge g u v w) a b ↔ EdgeRel g a b ∨ (a = u ∧ b = v) := by
  by_cases h : a = u
  · subst h
    simp [EdgeRel, successors_add_edge]
  · simp [EdgeRel, successors_add_edge, h]

theorem reach_add_edge_decomp (g : PyGraph α β γ) (u v : α) (w : Option γ) {a b : α}
    (h : Relation.ReflTransGen (EdgeRel (add_edge g u v w)) a b) :
    Relation.ReflTransGen (EdgeRel g) a b
    ∨ (Relation.ReflTransGen (EdgeRel g) a u ∧ Relation.ReflTransGen (EdgeRel g) v b) := by
  induction h with
  | refl => exact Or.inl Relation.ReflTransGen.refl
  | tail hac hcb ih =>
      rcases (edgeRel_add_edge_iff g u v w _ _).mp hcb with he | ⟨rfl, rfl⟩
      · rcases ih with ih1 | ⟨ih1, ih2⟩
        · exact Or.inl (ih1.tail he)
        · exact Or.inr ⟨ih1, ih2.tail he⟩
      · rcases ih with ih1 | ⟨ih1, ih2⟩
        · exact Or.inr ⟨ih1, Relation.ReflTransGen.refl⟩
        · exact Or.inr ⟨ih1, Relation.ReflTransGen.refl⟩

theorem acyclicEdge_add_edge (g : PyGraph α β γ) (u v : α) (w : Option γ)
    (hg : AcyclicEdge g) (hnr : ¬ Relation.ReflTransGen (EdgeRel g) v u) :
    AcyclicEdge (add_edge g u v w) := by
  intro a b hab hba
  rcases (edgeRel_add_edge_iff g u v w a b).mp hab with he | ⟨rfl, rfl⟩
  · rcases reach_add_edge_decomp g u v w hba with h1 | ⟨h1, h2⟩
    · exact hg a b he h1
    · exact hnr (h2.trans (Relation.ReflTransGen.head he h1))
  · rcases reach_add_edge_decomp g a b w hba with h1 | ⟨h1, h2⟩
    · exact hnr h1
    · exact hnr h1

theorem acyclic_of_acyclicEdge (g : PyGraph α β γ) (h : AcyclicEdge g) : Acyclic g := by
  intro x hx
  cases hx with
  | single h1 => exact h x x h1 Relation.ReflTransGen.refl
  | tail h1 h2 => exact h _ x h2 h1.to_reflTransGen

theorem acyclicEdge_of_acyclic (g : PyGraph α β γ) (h : Acyclic g) : AcyclicEdge g := by
  intro a b hab hba
  exact h a (Relation.TransGen.head' hab hba)

theorem acyclicEdge_empty : AcyclicEdge (PyGraph.empty α β γ) := by
  intro a b hab
  simp [EdgeRel, successors, alookup, PyGraph.empty] at hab

theorem acyclicEdge_applyDAG (g : PyGraph α β γ) (op : DagOp α β γ)
    (h : AcyclicEdge g) : AcyclicEdge (applyDAG g op) := by
  cases op with
  | node n d =>
      have hshape : applyDAG g (DagOp.node n d) = add_node g n d := rfl
      rw [hshape]
      have he := edgeRel_add_node_eq g n d
      simp only [AcyclicEdge, he]
      exact h
  | edge u v w =>
      have hshape : applyDAG g (DagOp.edge u v w) = tryAddEdge g u v w := rfl
      rw [hshape]
      cases hd : DAG_add_edge g u v w with
      | error e =>
          rw [show tryAddEdge g u v w = g from by unfold tryAddEdge; rw [hd]]
          exact h
      | ok g' =>
          rw [show tryAddEdge g u v w = g' from by unfold tryAddEdge; rw [hd]]
          unfold DAG_add_edge at hd
          by_cases hp : hasPath g v u
          · rw [if_pos hp] at hd
            simp at hd
          · rw [if_neg hp] at hd
            have hg' : g' = add_edge g u v w := by
              injection hd with h'
              exact h'.symm
            subst hg'
            apply acyclicEdge_add_edge g u v w h
            intro hr
            exact hp (hasPath_complete g v u hr)

theorem buildDAG_acyclicEdge :
    ∀ (ops : List (DagOp α β γ)) (g : PyGraph α β γ),
      AcyclicEdge g → AcyclicEdge (ops.foldl applyDAG g) := by
  intro ops
  induction ops with
  | nil => intro g h; exact h
  | cons op ops ih =>
      intro g h
      rw [List.foldl_cons]
      exact ih _ (acyclicEdge_applyDAG g op h)

/-- C1: after every finite sequence of `DAG` calls starting from the empty
graph (a rejected edge leaves the state unchanged, so the reachable states
are exactly those of all successful-call sequences), the resulting graph
has no directed cycle: no node reaches itself via one or more edges. -/
theorem buildDAG_acyclic (ops : List (DagOp α β γ)) : Acyclic (buildDAG ops) :=
  acyclic_of_acyclicEdge _ (buildDAG_acyclicEdge ops _ acyclicEdge_empty)

theorem buildDAG_acyclic_witness :
    Acyclic (buildDAG ([DagOp.edge 0 1 none, DagOp.edge 1 2 none,
      DagOp.edge 2 0 none] : List (DagOp Nat Nat Nat))) :=
  buildDAG_acyclic _

/-! ### `topsort`: basic invariants of `visit` -/

theorem visitList_nil (g : PyGraph α β γ) (f : Nat) (s : List α × List α) :
    visitList g f [] s = s := rfl

theorem visitList_cons (g : PyGraph α β γ) (f : Nat) (n : α) (ns : List α)
    (s : List α × List α) :
    visitList g f (n :: ns) s = visitList g f ns (visitF g f n s) := rfl

theorem visitF_zero (g : PyGraph α β γ) (node : α) (s : List α × List α) :
    visitF g 0 node s = s := rfl

theorem visitF_succ (g : PyGraph α β γ) (f : Nat) (node : α) (s : List α × List α) :
    visitF g (f + 1) node s =
      if node ∈ s.1 then s
      else
        ((visitList g f (successors g node) (node :: s.1, s.2)).1,
         (visitList g f (successors g node) (node :: s.1, s.2)).2 ++ [node]) := rfl

theorem mem_keys_of_allNodes (g : PyGraph α β γ) (hwf : SuccClosed g) {x : α}
    (h : x ∈ allNodes g) : x ∈ get_nodes g := by
  rcases List.mem_append.mp h with h1 | h1
  · exact h1
  · obtain ⟨l, hl, hx⟩ := List.mem_flatten.mp h1
    obtain ⟨p, hp, hpl⟩ := List.mem_map.mp hl
    have := hwf p hp x (hpl ▸ hx)
    exact (alookup_isSome_iff x g.adj).mp this

/-- One step of `visit`, spelled for a whole neighbour list: the visited
set only grows, the result list only grows at the tail, it stays inside the
visited set, it stays duplicate-free, new visited nodes come from the graph
(or the argument list), and newly finished nodes were unvisited. -/
theorem visitList_base_aux (g : PyGraph α β γ) (fuel : Nat)
    (hF : ∀ (node : α) (s : List α × List α),
      (∀ x ∈ s.2, x ∈ s.1) → s.2.Nodup →
      (∀ x ∈ s.1, x ∈ (visitF g fuel node s).1)
      ∧ List.Sublist s.2 (visitF g fuel node s).2
      ∧ (∀ x ∈ (visitF g fuel node s).2, x ∈ (visitF g fuel node s).1)
      ∧ (visitF g fuel node s).2.Nodup
      ∧ (∀ x ∈ (visitF g fuel node s).1, x ∈ s.1 ∨ x = node ∨ x ∈ allNodes g)
      ∧ (∀ x ∈ (visitF g fuel node s).2, x ∈ s.2 ∨ x ∉ s.1)) :
    ∀ (ns : List α) (s : List α × List α),
      (∀ x ∈ s.2, x ∈ s.1) → s.2.Nodup →
      (∀ x ∈ s.1, x ∈ (visitList g fuel ns s).1)
      ∧ List.Sublist s.2 (visitList g fuel ns s).2
      ∧ (∀ x ∈ (visitList g fuel ns s).2, x ∈ (visitList g fuel ns s).1)
      ∧ (visitList g fuel ns s).2.Nodup
      ∧ (∀ x ∈ (visitList g fuel ns s).1, x ∈ s.1 ∨ x ∈ ns ∨ x ∈ allNodes g)
      ∧ (∀ x ∈ (visitList g fuel ns s).2, x ∈ s.2 ∨ x ∉ s.1) := by
  intro ns
  induction ns with
  | nil =>
      intro s h1 h2
      rw [visitList_nil]
      exact ⟨fun x hx => hx, List.Sublist.refl _, h1, h2,
        fun x hx => Or.inl hx, fun x hx => Or.inl hx⟩
  | cons n ns ih =>
      intro s h1 h2
      rw [visitList_cons]
      have hn := hF n s h1 h2
      have hrec := ih (visitF g fuel n s) hn.2.2.1 hn.2.2.2.1
      refine ⟨?_, ?_, hrec.2.2.1, hrec.2.2.2.1, ?_, ?_⟩
      · exact fun x hx => hrec.1 x (hn.1 x hx)
      · exact hn.2.1.trans hrec.2.1
      · intro x hx
        rcases hrec.2.2.2.2.1 x hx with hx1 | hx1 | hx1
        · rcases hn.2.2.2.2.1 x hx1 with h3 | h3 | h3
          · exact Or.inl h3
          · exact Or.inr (Or.inl (h3 ▸ List.mem_cons_self _ _))
          · exact Or.inr (Or.inr h3)
        · exact Or.inr (Or.inl (List.mem_cons_of_mem _ hx1))
        · exact Or.inr (Or.inr hx1)
      · intro x hx
        rcases hrec.2.2.2.2.2 x hx with hx1 | hx2
        · rcases hn.2.2.2.2.2 x hx1 with h3 | h3
          · exact Or.inl h3
          · exact Or.inr h3
        · exact Or.inr (fun hc => hx2 (hn.1 x hc))

theorem visitF_base (g : PyGraph α β γ) :
    ∀ (fuel : Nat) (node : α) (s : List α × List α),
      (∀ x ∈ s.2, x ∈ s.1) → s.2.Nodup →
      (∀ x ∈ s.1, x ∈ (visitF g fuel node s).1)
      ∧ List.Sublist s.2 (visitF g fuel node s).2
      ∧ (∀ x ∈ (visitF g fuel node s).2, x ∈ (visitF g fuel node s).1)
      ∧ (visitF g fuel node s).2.Nodup
      ∧ (∀ x ∈ (visitF g fuel node s).1, x ∈ s.1 ∨ x = node ∨ x ∈ allNodes g)
      ∧ (∀ x ∈ (visitF g fuel node s).2, x ∈ s.2 ∨ x ∉ s.1) := by
  intro fuel
  induction fuel with
  | zero =>
      intro node s h1 h2
      rw [visitF_zero]
      exact ⟨fun x hx => hx, List.Sublist.refl _, h1, h2,
        fun x hx => Or.inl hx, fun x hx => Or.inl hx⟩
  | succ f ih =>
      intro node s h1 h2
      rw [visitF_succ]
      by_cases hn : node ∈ s.1
      · rw [if_pos hn]
        exact ⟨fun x hx => hx, List.Sublist.refl _, h1, h2,
          fun x hx => Or.inl hx, fun x hx => Or.inl hx⟩
      · rw [if_neg hn]
        have hs0 : ∀ x ∈ s.2, x ∈ node :: s.1 := fun x hx => List.mem_cons_of_mem _ (h1 x hx)
        have hl := visitList_base_aux g f ih (successors g node) (node :: s.1, s.2) hs0 h2
        have hnodemem : node ∈ (visitList g f (successors g node) (node :: s.1, s.2)).1 :=
          hl.1 node (List.mem_cons_self _ _)
        have hnotres : node ∉ (visitList g f (successors g node) (node :: s.1, s.2)).2 := by
          intro hc
          rcases hl.2.2.2.2.2 node hc with h3 | h3
          · exact hn (h1 node h3)
          · exact h3 (List.mem_cons_self _ _)
        refine ⟨?_, ?_, ?_, ?_, ?_, ?_⟩
        · exact fun x hx => hl.1 x (List.mem_cons_of_mem _ hx)
        · exact hl.2.1.trans (List.sublist_append_left _ _)
        · intro x hx
          rcases List.mem_append.mp hx with hx1 | hx1
          · exact hl.2.2.1 x hx1
          · have : x = node := by simpa using hx1
            exact this ▸ hnodemem
        · refine List.Nodup.append hl.2.2.2.1 (List.nodup_singleton node) ?_
          intro a ha hb
          have : a = node := by simpa using hb
          exact hnotres (this ▸ ha)
        · intro x hx
          rcases hl.2.2.2.2.1 x hx with h3 | h3 | h3
          · rcases List.mem_cons.mp h3 with h4 | h4
            · exact Or.inr (Or.inl h4)
            · exact Or.inl h4
          · exact Or.inr (Or.inr (mem_allNodes_of_succ g h3))
          · exact Or.inr (Or.inr h3)
        · intro x hx
          rcases List.mem_append.mp hx with hx1 | hx1
          · rcases hl.2.2.2.2.2 x hx1 with h3 | h3
            · exact Or.inl h3
            · exact Or.inr (fun hc => h3 (List.mem_cons_of_mem _ hc))
          · have : x = node := by simpa using hx1
            exact Or.inr (this ▸ hn)

theorem visitList_base (g : PyGraph α β γ) (fuel : Nat) :
    ∀ (ns : List α) (s : List α × List α),
      (∀ x ∈ s.2, x ∈ s.1) → s.2.Nodup →
      (∀ x ∈ s.1, x ∈ (visitList g fuel ns s).1)
      ∧ List.Sublist s.2 (visitList g fuel ns s).2
      ∧ (∀ x ∈ (visitList g fuel ns s).2, x ∈ (visitList g fuel ns s).1)
      ∧ (visitList g fuel ns s).2.Nodup
      ∧ (∀ x ∈ (visitList g fuel ns s).1, x ∈ s.1 ∨ x ∈ ns ∨ x ∈ allNodes g)
      ∧ (∀ x ∈ (visitList g fuel ns s).2, x ∈ s.2 ∨ x ∉ s.1) :=
  visitList_base_aux g fuel (visitF_base g fuel)

/-- With enough fuel, a whole neighbour loop of `visit` leaves every listed
node visited and creates no "visited but unfinished" node beyond those
already present. -/
theorem visitList_full_aux (g : PyGraph α β γ) (fuel : Nat)
    (hF : ∀ (node : α) (s : List α × List α),
      newCard g s.1 + 1 ≤ fuel →
      (∀ x ∈ s.2, x ∈ s.1) → s.2.Nodup →
      node ∈ (visitF g fuel node s).1
      ∧ (node ∉ s.1 → node ∈ (visitF g fuel node s).2)
      ∧ (∀ x ∈ (visitF g fuel node s).1, x ∈ s.1 ∨ x ∈ (visitF g fuel node s).2)) :
    ∀ (ns : List α) (s : List α × List α),
      newCard g s.1 + 1 ≤ fuel →
      (∀ x ∈ s.2, x ∈ s.1) → s.2.Nodup →
      (∀ n ∈ ns, n ∈ (visitList g fuel ns s).1)
      ∧ (∀ x ∈ (visitList g fuel ns s).1, x ∈ s.1 ∨ x ∈ (visitList g fuel ns s).2) := by
  intro ns
  induction ns with
  | nil =>
      intro s _ _ _
      rw [visitList_nil]
      exact ⟨by simp, fun x hx => Or.inl hx⟩
  | cons n ns ih =>
      intro s hfuel h1 h2
      rw [visitList_cons]
      have hbase := visitF_base g fuel n s h1 h2
      have hfull := hF n s hfuel h1 h2
      have hfuel' : newCard g (visitF g fuel n s).1 + 1 ≤ fuel := by
        have := newCard_le g hbase.1
        omega
      have hrec := ih (visitF g fuel n s) hfuel' hbase.2.2.1 hbase.2.2.2.1
      have hbase2 := visitList_base g fuel ns (visitF g fuel n s) hbase.2.2.1 hbase.2.2.2.1
      refine ⟨?_, ?_⟩
      · intro m hm
        rcases List.mem_cons.mp hm with rfl | hm2
        · exact hbase2.1 m hfull.1
        · exact hrec.1 m hm2
      · intro x hx
        rcases hrec.2 x hx with hx1 | hx2
        · rcases hfull.2.2 x hx1 with h3 | h3
          · exact Or.inl h3
          · exact Or.inr (hbase2.2.1.subset h3)
        · exact Or.inr hx2

theorem visitF_full (g : PyGraph α β γ) :
    ∀ (fuel : Nat) (node : α) (s : List α × List α),
      newCard g s.1 + 1 ≤ fuel →
      (∀ x ∈ s.2, x ∈ s.1) → s.2.Nodup →
      node ∈ (visitF g fuel node s).1
      ∧ (node ∉ s.1 → node ∈ (visitF g fuel node s).2)
      ∧ (∀ x ∈ (visitF g fuel node s).1, x ∈ s.1 ∨ x ∈ (visitF g fuel node s).2) := by
  intro fuel
  induction fuel with
  | zero => intro node s hfuel; omega
  | succ f ih =>
      intro node s hfuel h1 h2
      rw [visitF_succ]
      by_cases hn : node ∈ s.1
      · rw [if_pos hn]
        exact ⟨hn, fun hc => absurd hn hc, fun x hx => Or.inl hx⟩
      · rw [if_neg hn]
        have hs0 : ∀ x ∈ s.2, x ∈ node :: s.1 := fun x hx => List.mem_cons_of_mem _ (h1 x hx)
        by_cases han : node ∈ allNodes g
        · have hfuel0 : newCard g (node :: s.1) + 1 ≤ f := by
            have := newCard_cons_lt g han hn
            omega
          have hl := visitList_full_aux g f ih (successors g node) (node :: s.1, s.2)
            hfuel0 hs0 h2
          have hbase := visitList_base g f (successors g node) (node :: s.1, s.2) hs0 h2
          refine ⟨?_, ?_, ?_⟩
          · exact hbase.1 node (List.mem_cons_self _ _)
          · intro _
            simp
          · intro x hx
            rcases hl.2 x hx with hx1 | hx1
            · rcases List.mem_cons.mp hx1 with rfl | hx2
              · exact Or.inr (List.mem_append.mpr (Or.inr (by simp)))
              · exact Or.inl hx2
            · exact Or.inr (List.mem_append.mpr (Or.inl hx1))
        · have hemp : successors g node = [] := succ_empty_of_notin_allNodes g han
          rw [hemp, visitList_nil]
          refine ⟨List.mem_cons_self _ _, fun _ => by simp, ?_⟩
          intro x hx
          rcases List.mem_cons.mp hx with rfl | hx2
          · exact Or.inr (by simp)
          · exact Or.inl hx2

theorem visitList_full (g : PyGraph α β γ) (fuel : Nat) :
    ∀ (ns : List α) (s : List α × List α),
      newCard g s.1 + 1 ≤ fuel →
      (∀ x ∈ s.2, x ∈ s.1) → s.2.Nodup →
      (∀ n ∈ ns, n ∈ (visitList g fuel ns s).1)
      ∧ (∀ x ∈ (visitList g fuel ns s).1, x ∈ s.1 ∨ x ∈ (visitList g fuel ns s).2) :=
  visitList_full_aux g fuel (visitF_full g fuel)

/-- C6: `topsort` is a total function (it raises no error on any graph,
cyclic or not) and, on every graph whose adjacency lists mention only known
nodes — true of every state reachable through the public interface — it
returns every known node identifier exactly once. -/
theorem topsort_total (g : PyGraph α β γ) (hwf : SuccClosed g) :
    (topsort g).Nodup ∧ ∀ x : α, x ∈ topsort g ↔ x ∈ get_nodes g := by
  have hfuel : newCard g ([] : List α) + 1 ≤ fuelOf g := by
    have := newCard_nil_le g
    unfold fuelOf
    omega
  have hpre1 : ∀ x ∈ (([], []) : List α × List α).2, x ∈ (([], []) : List α × List α).1 := by
    simp
  have hpre2 : (([], []) : List α × List α).2.Nodup := List.nodup_nil
  have hb := visitList_base g (fuelOf g) (get_nodes g) ([], []) hpre1 hpre2
  have hf := visitList_full g (fuelOf g) (get_nodes g) ([], []) hfuel hpre1 hpre2
  constructor
  · exact List.nodup_reverse.mpr hb.2.2.2.1
  · intro x
    rw [show topsort g = (visitList g (fuelOf g) (get_nodes g) ([], [])).2.reverse from rfl,
      List.mem_reverse]
    constructor
    · intro hx
      have hx1 := hb.2.2.1 x hx
      rcases hb.2.2.2.2.1 x hx1 with h1 | h1 | h1
      · simp at h1
      · exact h1
      · exact mem_keys_of_allNodes g hwf h1
    · intro hx
      have h2 := hf.1 x hx
      rcases hf.2 x h2 with h3 | h3
      · simp at h3
      · exact h3

/-- A two-node cycle: the graph 0 → 1 → 0. -/
def gCycle : PyGraph Nat Nat Nat := ⟨[(0, [1]), (1, [0])], [], []⟩

theorem topsort_total_witness :
    (topsort gCycle).Nodup ∧ (0 ∈ topsort gCycle ↔ 0 ∈ get_nodes gCycle) := by
  have hwf : SuccClosed gCycle := by
    show ∀ p ∈ gCycle.adj, ∀ v ∈ p.2, (alookup v gCycle.adj).isSome = true
    decide
  exact ⟨(topsort_total gCycle hwf).1, (topsort_total gCycle hwf).2 0⟩

/-! ### `topsort` ordering on acyclic graphs (C4) -/

/-- The finished list is closed under successors and lists every successor
strictly before its source (postorder). -/
def ResultClosed (g : PyGraph α β γ) (r : List α) : Prop :=
  ∀ u ∈ r, ∀ v ∈ successors g u, List.Sublist [v, u] r

theorem visitList_order_aux (g : PyGraph α β γ) (fuel : Nat)
    (hF : ∀ (node : α) (s : List α × List α),
      AcyclicEdge g →
      newCard g s.1 + 1 ≤ fuel →
      (∀ x ∈ s.2, x ∈ s.1) → s.2.Nodup →
      (∀ y ∈ s.1, y ∉ s.2 → Reaches g y node) →
      ResultClosed g s.2 →
      ResultClosed g (visitF g fuel node s).2) :
    ∀ (node : α) (ns : List α) (s : List α × List α),
      AcyclicEdge g →
      (∀ n ∈ ns, EdgeRel g node n) →
      newCard g s.1 + 1 ≤ fuel →
      (∀ x ∈ s.2, x ∈ s.1) → s.2.Nodup →
      (∀ y ∈ s.1, y ∉ s.2 → Reaches g y node) →
      ResultClosed g s.2 →
      ResultClosed g (visitList g fuel ns s).2
      ∧ (∀ n ∈ ns, n ∈ (visitList g fuel ns s).2) := by
  intro node ns
  induction ns with
  | nil =>
      intro s _ _ _ _ _ _ hcl
      rw [visitList_nil]
      exact ⟨hcl, by simp⟩
  | cons n ns ih =>
      intro s hacyc hedge hfuel h1 h2 hgray hcl
      rw [visitList_cons]
      have hbase := visitF_base g fuel n s h1 h2
      have hfull := visitF_full g fuel n s hfuel h1 h2
      have hgray' : ∀ y ∈ s.1, y ∉ s.2 → Reaches g y n :=
        fun y hy1 hy2 => (hgray y hy1 hy2).tail (hedge n (List.mem_cons_self _ _))
      have hcl1 := hF n s hacyc hfuel h1 h2 hgray' hcl
      have hfuel' : newCard g (visitF g fuel n s).1 + 1 ≤ fuel := by
        have := newCard_le g hbase.1
        omega
      have hgray1 : ∀ y ∈ (visitF g fuel n s).1, y ∉ (visitF g fuel n s).2 →
          Reaches g y node := by
        intro y hy1 hy2
        rcases hfull.2.2 y hy1 with h3 | h3
        · refine hgray y h3 ?_
          intro hc
          exact hy2 (hbase.2.1.subset hc)
        · exact absurd h3 hy2
      have hrec := ih (visitF g fuel n s) hacyc
        (fun m hm => hedge m (List.mem_cons_of_mem _ hm)) hfuel'
        hbase.2.2.1 hbase.2.2.2.1 hgray1 hcl1
      have hbase2 := visitList_base g fuel ns (visitF g fuel n s)
        hbase.2.2.1 hbase.2.2.2.1
      refine ⟨hrec.1, ?_⟩
      intro m hm
      rcases List.mem_cons.mp hm with rfl | hm2
      · by_cases hms : m ∈ s.1
        · by_cases hmr : m ∈ s.2
          · exact hbase2.2.1.subset (hbase.2.1.subset hmr)
          · exact absurd (hgray m hms hmr)
              (hacyc node m (hedge m (List.mem_cons_self _ _)))
        · exact hbase2.2.1.subset (hfull.2.1 hms)
      · exact hrec.2 m hm2

theorem visitF_order (g : PyGraph α β γ) :
    ∀ (fuel : Nat) (node : α) (s : List α × List α),
      AcyclicEdge g →
      newCard g s.1 + 1 ≤ fuel →
      (∀ x ∈ s.2, x ∈ s.1) → s.2.Nodup →
      (∀ y ∈ s.1, y ∉ s.2 → Reaches g y node) →
      ResultClosed g s.2 →
      ResultClosed g (visitF g fuel node s).2 := by
  intro fuel
  induction fuel with
  | zero => intro node s _ hfuel; omega
  | succ f ih =>
      intro node s hacyc hfuel h1 h2 hgray hcl
      rw [visitF_succ]
      by_cases hn : node ∈ s.1
      · rw [if_pos hn]
        exact hcl
      · rw [if_neg hn]
        have hs0 : ∀ x ∈ s.2, x ∈ node :: s.1 :=
          fun x hx => List.mem_cons_of_mem _ (h1 x hx)
        have hgray0 : ∀ y ∈ node :: s.1, y ∉ s.2 → Reaches g y node := by
          intro y hy1 hy2
          rcases List.mem_cons.mp hy1 with rfl | h3
          · exact Relation.ReflTransGen.refl
          · exact hgray y h3 hy2
        by_cases han : node ∈ allNodes g
        · have hfuel0 : newCard g (node :: s.1) + 1 ≤ f := by
            have := newCard_cons_lt g han hn
            omega
          have hl := visitList_order_aux g f ih node (successors g node)
            (node :: s.1, s.2) hacyc (fun n hn => hn) hfuel0 hs0 h2 hgray0 hcl
          intro u hu v hv
          rcases List.mem_append.mp hu with hu1 | hu1
          · exact (hl.1 u hu1 v hv).trans (List.sublist_append_left _ _)
          · have hun : u = node := by simpa using hu1
            subst hun
            have hvmem : v ∈ (visitList g f (successors g u) (u :: s.1, s.2)).2 :=
              hl.2 v hv
            have h4 : List.Sublist [v] (visitList g f (successors g u) (u :: s.1, s.2)).2 :=
              List.singleton_sublist.mpr hvmem
            exact List.Sublist.append h4 (List.Sublist.refl [u])
        · have hemp : successors g node = [] := succ_empty_of_notin_allNodes g han
          rw [hemp, visitList_nil]
          intro u hu v hv
          rcases List.mem_append.mp hu with hu1 | hu1
          · exact (hcl u hu1 v hv).trans (List.sublist_append_left _ _)
          · have hun : u = node := by simpa using hu1
            subst hun
            rw [hemp] at hv
            simp at hv

theorem visitList_order_roots (g : PyGraph α β γ) (fuel : Nat) :
    ∀ (ns : List α) (s : List α × List α),
      AcyclicEdge g →
      newCard g s.1 + 1 ≤ fuel →
      (∀ x ∈ s.2, x ∈ s.1) → s.2.Nodup →
      (∀ x ∈ s.1, x ∈ s.2) →
      ResultClosed g s.2 →
      ResultClosed g (visitList g fuel ns s).2
      ∧ (∀ x ∈ (visitList g fuel ns s).1, x ∈ (visitList g fuel ns s).2) := by
  intro ns
  induction ns with
  | nil =>
      intro s _ _ _ _ hgf hcl
      rw [visitList_nil]
      exact ⟨hcl, hgf⟩
  | cons n ns ih =>
      intro s hacyc hfuel h1 h2 hgf hcl
      rw [visitList_cons]
      have hbase := visitF_base g fuel n s h1 h2
      have hfull := visitF_full g fuel n s hfuel h1 h2
      have hcl1 := visitF_order g fuel n s hacyc hfuel h1 h2
        (fun y hy1 hy2 => absurd (hgf y hy1) hy2) hcl
      have hgf1 : ∀ x ∈ (visitF g fuel n s).1, x ∈ (visitF g fuel n s).2 := by
        intro x hx
        rcases hfull.2.2 x hx with h3 | h3
        · exact hbase.2.1.subset (hgf x h3)
        · exact h3
      have hfuel' : newCard g (visitF g fuel n s).1 + 1 ≤ fuel := by
        have := newCard_le g hbase.1
        omega
      exact ih (visitF g fuel n s) hacyc hfuel' hbase.2.2.1 hbase.2.2.2.1 hgf1 hcl1

theorem indexOf_lt_of_pair_sublist :
    ∀ (l : List α) (a b : α), l.Nodup → List.Sublist [a, b] l →
      l.indexOf a < l.indexOf b := by
  intro l
  induction l with
  | nil => intro a b _ h; simp at h
  | cons c t iht =>
      intro a b hnd h
      rw [List.nodup_cons] at hnd
      cases h with
      | cons _ h' =>
          have ha : a ∈ t := h'.subset (by simp)
          have hb : b ∈ t := h'.subset (by simp)
          have hca : c ≠ a := fun hh => hnd.1 (hh ▸ ha)
          have hcb : c ≠ b := fun hh => hnd.1 (hh ▸ hb)
          rw [List.indexOf_cons_ne t hca, List.indexOf_cons_ne t hcb]
          exact Nat.succ_lt_succ (iht a b hnd.2 h')
      | cons₂ _ h' =>
          have hb : b ∈ t := h'.subset (by simp)
          have hcb : c ≠ b := fun hh => hnd.1 (hh ▸ hb)
          rw [List.indexOf_cons_self, List.indexOf_cons_ne t hcb]
          exact Nat.succ_pos _

/-- C4: on every acyclic graph, `topsort` puts the source of every edge
strictly before its target. -/
theorem topsort_respects_edges (g : PyGraph α β γ) (hacyc : Acyclic g) :
    ∀ u v : α, EdgeRel g u v →
      (topsort g).indexOf u < (topsort g).indexOf v := by
  intro u v he
  have hacE := acyclicEdge_of_acyclic g hacyc
  have hfuel : newCard g ([] : List α) + 1 ≤ fuelOf g := by
    have := newCard_nil_le g
    unfold fuelOf
    omega
  have hpre1 : ∀ x ∈ (([], []) : List α × List α).2, x ∈ (([], []) : List α × List α).1 := by
    simp
  have hpre2 : (([], []) : List α × List α).2.Nodup := List.nodup_nil
  have hb := visitList_base g (fuelOf g) (get_nodes g) ([], []) hpre1 hpre2
  have hf := visitList_full g (fuelOf g) (get_nodes g) ([], []) hfuel hpre1 hpre2
  have hord := visitList_order_roots g (fuelOf g) (get_nodes g) ([], []) hacE hfuel
    hpre1 hpre2 (by intro x hx; simp at hx) (by intro x hx; simp at hx)
  have hukey : u ∈ get_nodes g := by
    have hsome : (alookup u g.adj).isSome = true := by
      cases hl : alookup u g.adj with
      | none =>
          exfalso
          have he' : v ∈ (alookup u g.adj).getD [] := he
          rw [hl] at he'
          simp at he'
      | some l => simp
    exact (alookup_isSome_iff u g.adj).mp hsome
  have hu1 := hf.1 u hukey
  have hu2 := hord.2 u hu1
  have hpair : List.Sublist [v, u] (visitList g (fuelOf g) (get_nodes g) ([], [])).2 :=
    hord.1 u hu2 v he
  have hpair' :
      List.Sublist [u, v] (visitList g (fuelOf g) (get_nodes g) ([], [])).2.reverse := by
    have hr := hpair.reverse
    simpa using hr
  have hnd : (visitList g (fuelOf g) (get_nodes g) ([], [])).2.reverse.Nodup :=
    List.nodup_reverse.mpr hb.2.2.2.1
  exact indexOf_lt_of_pair_sublist _ u v hnd hpair'

/-- If some rank function strictly increases along every edge, the graph is
acyclic. -/
theorem acyclic_of_rank (g : PyGraph α β γ) (f : α → Nat)
    (h : ∀ a b : α, EdgeRel g a b → f a < f b) : Acyclic g := by
  intro x hx
  have hmono : ∀ {a b : α}, Relation.TransGen (EdgeRel g) a b → f a < f b := by
    intro a b ht
    induction ht with
    | single h1 => exact h _ _ h1
    | tail _ h2 ih => exact ih.trans (h _ _ h2)
  exact absurd (hmono hx) (lt_irrefl _)

/-- The single-edge graph 0 → 1. -/
def gEdge : PyGraph Nat Nat Nat := ⟨[(0, [1]), (1, [])], [], []⟩

theorem gEdge_edges : ∀ a b : Nat, EdgeRel gEdge a b → a = 0 ∧ b = 1 := by
  intro a b h
  have h' : b ∈ (alookup a gEdge.adj).getD [] := h
  by_cases h0 : a = 0
  · subst h0
    have hb : b ∈ [1] := by simpa [gEdge, alookup] using h'
    exact ⟨rfl, by simpa using hb⟩
  · by_cases h1 : a = 1
    · subst h1
      simp [gEdge, alookup] at h'
    · have hn0 : ¬ (0 : Nat) = a := fun hh => h0 hh.symm
      have hn1 : ¬ (1 : Nat) = a := fun hh => h1 hh.symm
      simp [gEdge, alookup, hn0, hn1] at h'

theorem topsort_respects_edges_witness :
    (topsort gEdge).indexOf 0 < (topsort gEdge).indexOf 1 :=
  topsort_respects_edges gEdge
    (acyclic_of_rank gEdge id
      (fun a b h => by
        obtain ⟨ha, hb⟩ := gEdge_edges a b h
        subst ha
        subst hb
        decide))
    0 1 (by show (1 : Nat) ∈ successors gEdge 0; decide)
